import Mathlib

/-!
Verification of the patch-application engine and document codec of the
`kj` tool (create a custom Kubernetes Job from a CronJob template).

The Go code is shallowly embedded:
* `map[string]interface{}` documents become the inductive `Yaml` type with
  association-list maps (`mapInsert` models in-place map assignment);
* `applyPatch` (the path patch resolver) becomes a structurally recursive
  function returning the post-call document together with an optional
  error, so that partial in-place mutation before a failure is observable;
* `jobToYaml` (the document codec) becomes a function on a small typed
  `Job` record; the byte-level comment splicing is embedded verbatim over
  `List Char` (Go byte slices), with the index/slice panics of
  `data[namespaceInd:]` and `slices.Insert` modelled as `Option.none`.
-/

/-- A structurally typed YAML/JSON document: the embedding of Go's
decoded `interface{}` values (`nil`, strings, `[]interface{}`,
`map[string]interface{}`). Scalars other than strings are not needed by
the verified properties and are represented as strings. -/
inductive Yaml where
  | null : Yaml
  | str : String → Yaml
  | arr : List Yaml → Yaml
  | map : List (String × Yaml) → Yaml
  deriving Repr, Inhabited

mutual

def yamlDecEq : (a b : Yaml) → Decidable (a = b)
  | .null, .null => .isTrue rfl
  | .null, .str _ => .isFalse (by intro h; exact Yaml.noConfusion h)
  | .null, .arr _ => .isFalse (by intro h; exact Yaml.noConfusion h)
  | .null, .map _ => .isFalse (by intro h; exact Yaml.noConfusion h)
  | .str _, .null => .isFalse (by intro h; exact Yaml.noConfusion h)
  | .str s, .str t =>
    if h : s = t then .isTrue (by rw [h]) else .isFalse (by simp [h])
  | .str _, .arr _ => .isFalse (by intro h; exact Yaml.noConfusion h)
  | .str _, .map _ => .isFalse (by intro h; exact Yaml.noConfusion h)
  | .arr _, .null => .isFalse (by intro h; exact Yaml.noConfusion h)
  | .arr _, .str _ => .isFalse (by intro h; exact Yaml.noConfusion h)
  | .arr xs, .arr ys =>
    match yamlListDecEq xs ys with
    | .isTrue h => .isTrue (by rw [h])
    | .isFalse h => .isFalse (by simp [h])
  | .arr _, .map _ => .isFalse (by intro h; exact Yaml.noConfusion h)
  | .map _, .null => .isFalse (by intro h; exact Yaml.noConfusion h)
  | .map _, .str _ => .isFalse (by intro h; exact Yaml.noConfusion h)
  | .map _, .arr _ => .isFalse (by intro h; exact Yaml.noConfusion h)
  | .map xs, .map ys =>
    match yamlKVDecEq xs ys with
    | .isTrue h => .isTrue (by rw [h])
    | .isFalse h => .isFalse (by simp [h])

def yamlListDecEq : (as bs : List Yaml) → Decidable (as = bs)
  | [], [] => .isTrue rfl
  | [], _ :: _ => .isFalse (by intro h; exact List.noConfusion h)
  | _ :: _, [] => .isFalse (by intro h; exact List.noConfusion h)
  | a :: as, b :: bs =>
    match yamlDecEq a b with
    | .isFalse h => .isFalse (by intro hh; injection hh; contradiction)
    | .isTrue h1 =>
      match yamlListDecEq as bs with
      | .isTrue h2 => .isTrue (by rw [h1, h2])
      | .isFalse h2 => .isFalse (by intro hh; injection hh; contradiction)

def yamlKVDecEq : (as bs : List (String × Yaml)) → Decidable (as = bs)
  | [], [] => .isTrue rfl
  | [], _ :: _ => .isFalse (by intro h; exact List.noConfusion h)
  | _ :: _, [] => .isFalse (by intro h; exact List.noConfusion h)
  | (k, a) :: as, (k', b) :: bs =>
    if hk : k = k' then
      match yamlDecEq a b with
      | .isFalse h => .isFalse (by intro hh; injection hh with h1 h2; injection h1; contradiction)
      | .isTrue h1 =>
        match yamlKVDecEq as bs with
        | .isTrue h2 => .isTrue (by rw [hk, h1, h2])
        | .isFalse h2 => .isFalse (by intro hh; injection hh; contradiction)
    else .isFalse (by intro hh; injection hh with h1 h2; injection h1; contradiction)

end

instance : DecidableEq Yaml := yamlDecEq

/-- A Go `map[string]interface{}` document, embedded as an association
list (first binding for a key is the live one; `mapInsert` keeps keys
unique when building). -/
abbrev YamlMap := List (String × Yaml)

/-- Lookup in a document map: `current[segment]` with its `ok` flag. -/
def mapLookup (m : YamlMap) (k : String) : Option Yaml :=
  match m with
  | [] => none
  | (k', v) :: rest => if k' = k then some v else mapLookup rest k

/-- In-place map assignment `current[k] = v`: replaces the binding if the
key is present, otherwise appends it. -/
def mapInsert (m : YamlMap) (k : String) (v : Yaml) : YamlMap :=
  match m with
  | [] => [(k, v)]
  | (k', v') :: rest =>
    if k' = k then (k, v) :: rest else (k', v') :: mapInsert rest k v

theorem mapLookup_mapInsert_self (m : YamlMap) (k : String) (v : Yaml) :
    mapLookup (mapInsert m k v) k = some v := by
  induction m with
  | nil => simp [mapInsert, mapLookup]
  | cons hd tl ih =>
    obtain ⟨k', v'⟩ := hd
    by_cases h : k' = k <;> simp [mapInsert, mapLookup, h, ih]

theorem mapLookup_mapInsert_ne (m : YamlMap) (k k' : String) (v : Yaml)
    (h : k' ≠ k) : mapLookup (mapInsert m k v) k' = mapLookup m k' := by
  induction m with
  | nil => simp [mapInsert, mapLookup, Ne.symm h]
  | cons hd tl ih =>
    obtain ⟨k₀, v₀⟩ := hd
    by_cases h0 : k₀ = k
    · subst h0
      simp [mapInsert, mapLookup, Ne.symm h]
    · by_cases h1 : k₀ = k' <;> simp [mapInsert, mapLookup, h0, h1, h, ih]

/-- Re-inserting the value a key already has is a no-op: the embedding of
the fact that writing through an alias of `current[k]` does not change
the map structure. -/
theorem mapInsert_lookup_eq (m : YamlMap) (k : String) (v : Yaml)
    (h : mapLookup m k = some v) : mapInsert m k v = m := by
  induction m with
  | nil => simp [mapLookup] at h
  | cons hd tl ih =>
    obtain ⟨k', v'⟩ := hd
    by_cases h0 : k' = k
    · subst h0
      simp [mapLookup] at h
      simp [mapInsert, h]
    · simp [mapLookup, h0] at h
      simp [mapInsert, h0, ih h]

/-! ### Byte-string primitives

Go strings/byte slices are embedded as `List Char` (the sources only emit
ASCII); `startsB needle hay` decides whether `needle` is a prefix of
`hay`, and `findSub hay needle` embeds `strings.Index`/`bytes.Index`
(first occurrence, `none` for Go's `-1`). -/

/-- Does `needle` occur at the start of `hay`? -/
def startsB : List Char → List Char → Bool
  | [], _ => true
  | _ :: _, [] => false
  | n :: nt, h :: ht => if n = h then startsB nt ht else false

/-- Embeds `strings.Index(hay, needle)` / `bytes.Index(hay, needle)`: index of
the first occurrence of `needle` in `hay`; `none` for Go's `-1`. An empty
needle is found at index 0, as in Go. -/
def findSub : List Char → List Char → Option Nat
  | [], needle => if needle = [] then some 0 else none
  | c :: t, needle =>
    if startsB needle (c :: t) then some 0 else (findSub t needle).map (· + 1)

/-- The `strconv.Atoi` digit accumulation: all characters must be decimal
digits. -/
def digitsValAux : List Char → Nat → Option Nat
  | [], acc => some acc
  | c :: t, acc =>
    if '0' ≤ c ∧ c ≤ '9' then digitsValAux t (acc * 10 + (c.toNat - '0'.toNat))
    else none

/-- Value of a non-empty all-digit string. -/
def digitsVal : List Char → Option Nat
  | [] => none
  | c :: t => digitsValAux (c :: t) 0

/-- Embedding of `strconv.Atoi`: optional sign followed by at least one
decimal digit; anything else is an error (`none`). Go's `int` overflow
error is not modelled (the claims only involve small indices). -/
def atoi : List Char → Option Int
  | '+' :: t => (digitsVal t).map Int.ofNat
  | '-' :: t => (digitsVal t).map (fun n => -(Int.ofNat n))
  | l => (digitsVal l).map Int.ofNat

/-- Embedding of `strings.Split(path, ".")` (single-character separator):
splits on every '.', keeping empty pieces, and always returns at least
one piece (`strings.Split` of the empty string is `[""]`). -/
def splitDots : List Char → List (List Char)
  | [] => [[]]
  | '.' :: t => [] :: splitDots t
  | c :: t =>
    match splitDots t with
    | [] => [[c]]
    | l :: ls => (c :: l) :: ls

/-! ### The path patch resolver (`applyPatch`, src/unnamed/part_003) -/

/-- The error values produced by `applyPatch` (Go returns `fmt.Errorf`
values; each constructor is one of the four formats). -/
inductive PatchError where
  /-- "invalid array index in path: %s" -/
  | invalidArrayIndex (segment : String)
  /-- "path segment is not an array: %s" -/
  | notAnArray (arrayName : String)
  /-- "array index out of bounds: %d" -/
  | arrayIndexOutOfBounds (index : Int)
  /-- "path segment is not an object: %s" (plain-segment call site) -/
  | notAnObject (segment : String)
  /-- "path segment is not an object: %s[%d]" (array-element call site) -/
  | notAnObjectElem (arrayName : String) (index : Int)
  deriving DecidableEq, Repr

/-- Embeds `strings.Contains(s, "[") && strings.Contains(s, "]")`: the condition
under which `applyPatch` treats a non-final segment as an array access. -/
def hasBracketSeg (s : List Char) : Bool :=
  (findSub s ['[']).isSome && (findSub s [']']).isSome

/-- The segment-walking loop of `applyPatch`, embedded as recursion over
the remaining segments. The Go code mutates the shared document in
place, so the embedding returns the post-call document together with the
optional error: on an error the partially mutated document (with any
auto-vivified empty maps) is returned.

Fidelity notes mirroring the Go source:
* the final segment always assigns `current[segment] = value` verbatim,
  even if it contains brackets;
* for a bracketed non-final segment, `arrayName = segment[:iOpen]` and
  `indexStr = segment[iOpen+1:iClose]`; when `iClose < iOpen + 1` the Go
  slice expression panics, while this embedding yields `""` and hence the
  `invalidArrayIndex` error (the difference is unreachable from the
  claims, which never produce the out-of-bounds error there);
* the Go branches for `i == len(segments)-2` and the general case have
  identical bodies and are collapsed;
* auto-vivification inserts a fresh empty map and descends into it. -/
def applyPatchSegs (m : YamlMap) (segs : List (List Char)) (value : Yaml) :
    YamlMap × Option PatchError :=
  match segs with
  | [] => (m, none)
  | segment :: rest =>
    match rest with
    | [] => (mapInsert m (String.mk segment) value, none)
    | _ :: _ =>
      match findSub segment ['['], findSub segment [']'] with
      | some iOpen, some iClose =>
        let arrayName := String.mk (segment.take iOpen)
        let indexStr := (segment.take iClose).drop (iOpen + 1)
        match atoi indexStr with
        | none => (m, some (.invalidArrayIndex (String.mk segment)))
        | some index =>
          match mapLookup m arrayName with
          | some (.arr array) =>
            if index < 0 ∨ (array.length : Int) ≤ index then
              (m, some (.arrayIndexOutOfBounds index))
            else
              match array.getD index.toNat .null with
              | .map nextMap =>
                let res := applyPatchSegs nextMap rest value
                (mapInsert m arrayName (.arr (array.set index.toNat (.map res.1))), res.2)
              | _ => (m, some (.notAnObjectElem arrayName index))
          | _ => (m, some (.notAnArray arrayName))
      | _, _ =>
        match mapLookup m (String.mk segment) with
        | none =>
          let res := applyPatchSegs [] rest value
          (mapInsert m (String.mk segment) (.map res.1), res.2)
        | some (.map nestedMap) =>
          let res := applyPatchSegs nestedMap rest value
          (mapInsert m (String.mk segment) (.map res.1), res.2)
        | some _ => (m, some (.notAnObject (String.mk segment)))

/-- Embeds `applyPatch(jobMap, path, value)` from src/unnamed/part_003: splits
the path on "." and walks the document. Returns the post-call document
and the optional error. -/
def applyPatch (jobMap : YamlMap) (path : String) (value : Yaml) :
    YamlMap × Option PatchError :=
  applyPatchSegs jobMap (splitDots path.toList) value

/-! ### The patch loader (`loadPatchFromFile`, src/unnamed/part_003)

The physical JSON parsing is elided: the loader is embedded on the
already-decoded payload tree. -/

/-- The Go struct `patchFile { Path string; Value interface{} }`. -/
structure patchFile where
  path : String
  value : Yaml
  deriving DecidableEq, Repr

/-- Embeds `loadPatchFromFile`: `json.Unmarshal(data, &patch)` into the
`patchFile` struct. Decoding a JSON object ignores unknown fields and
leaves absent (or `null`) fields at their zero values (`""` / `nil`);
a `path` field that is present with a non-string, non-null value is a
type error, as is a payload whose top level is not an object. `none` is
the unmarshal error. -/
def loadPatchFromFile (payload : Yaml) : Option patchFile :=
  match payload with
  | .map kvs =>
    match mapLookup kvs "path" with
    | none => some ⟨"", (mapLookup kvs "value").getD .null⟩
    | some .null => some ⟨"", (mapLookup kvs "value").getD .null⟩
    | some (.str s) => some ⟨s, (mapLookup kvs "value").getD .null⟩
    | some _ => none
  | _ => none

/-- Embeds `applyPatchToYaml(yamlData, patch)` from src/unnamed/part_003, with
the `yaml.Unmarshal`/`yaml.Marshal` byte boundary elided: applies the
loaded patch to the decoded document tree. -/
def applyPatchToYaml (jobMap : YamlMap) (patch : patchFile) :
    YamlMap × Option PatchError :=
  applyPatch jobMap patch.path patch.value

/-- Modelled from the spec: the Patch Descriptor of §3/§4.3, either a
`{path, value}` instruction or a whole-document fragment. The Go code
has no corresponding type; this is the claim's view of the loader, kept
for comparison with `loadPatchFromFile`. -/
inductive PatchDescriptor where
  | pathPatch (path : String) (value : Yaml)
  | fragment (doc : Yaml)
  deriving DecidableEq, Repr

/-- Modelled from the spec: the auto-detection rule of §4.3 — "attempt
structural decode as `{path: string, value: any}`; if both fields are
present and `path` is non-empty, treat as a Path Patch Descriptor,
otherwise treat the entire payload as a structural-merge fragment". -/
def loadPatchSpec (payload : Yaml) : PatchDescriptor :=
  match payload with
  | .map kvs =>
    match mapLookup kvs "path", mapLookup kvs "value" with
    | some (.str p), some v => if p = "" then .fragment payload else .pathPatch p v
    | _, _ => .fragment payload
  | _ => .fragment payload

/-! ### Structural merge (strategic merge patch)

`patchJobEditor.EditJob` in src/main.go delegates the fragment form to
`strategicpatch.StrategicMergePatch` from k8s.io/apimachinery, whose code
is not part of this repository. It is modelled from the spec (§4.3):
scalar and map leaves of the fragment override the target, maps merge
recursively, and a sequence merges element-wise by the `name` merge key
when every element on both sides carries one, otherwise the fragment
sequence replaces the target sequence wholesale. -/

/-- The `name` merge key of a sequence element, when the element is a
map with a string under "name". -/
def nameOf (y : Yaml) : Option String :=
  match y with
  | .map m =>
    match mapLookup m "name" with
    | some (.str s) => some s
    | _ => none
  | _ => none

mutual

/-- Modelled from the spec: field-level structural merge of a fragment
(second argument) into a target (first argument). -/
def mergeYaml : Yaml → Yaml → Yaml
  | .map tm, .map fm => .map (mergeInto tm fm)
  | .arr ta, .arr fa =>
    if (ta.all fun e => (nameOf e).isSome) && (fa.all fun e => (nameOf e).isSome) then
      .arr (mergeListByName ta fa)
    else
      .arr fa
  | _, f => f
termination_by _ f => (sizeOf f, 0)

/-- Merge every fragment binding into the target map, recursively for
keys present on both sides; target keys absent from the fragment are
preserved. -/
def mergeInto (tm : YamlMap) : List (String × Yaml) → YamlMap
  | [] => tm
  | (k, v) :: rest =>
    mergeInto
      (mapInsert tm k
        (match mapLookup tm k with
          | some tv => mergeYaml tv v
          | none => v))
      rest
termination_by fl => (sizeOf fl, 0)

/-- Merge a fragment sequence into a target sequence by the `name` key,
one fragment element at a time. -/
def mergeListByName (ta : List Yaml) : List Yaml → List Yaml
  | [] => ta
  | fe :: rest => mergeListByName (mergeOneByName ta fe) rest
termination_by fl => (sizeOf fl, 0)

/-- Merge one named fragment element: the first target element with the
same name is merged in place; an unmatched fragment element is
appended. -/
def mergeOneByName : List Yaml → Yaml → List Yaml
  | [], fe => [fe]
  | te :: ts, fe =>
    if nameOf te = nameOf fe then mergeYaml te fe :: ts
    else te :: mergeOneByName ts fe
termination_by l fe => (sizeOf fe, sizeOf l)

end

/-- Path lookup in a document tree (map descent only), used to state
properties of merged documents. -/
def yamlGet : Yaml → List String → Option Yaml
  | y, [] => some y
  | .map m, k :: rest =>
    match mapLookup m k with
    | some v => yamlGet v rest
    | none => none
  | _, _ :: _ => none

/-- The given field of the first container of a Job document tree. -/
def containerField (y : Yaml) (field : String) : Option Yaml :=
  match yamlGet y ["spec", "template", "spec", "containers"] with
  | some (.arr (c0 :: _)) => yamlGet c0 [field]
  | _ => none

/-! ### Properties of the path patch resolver -/

theorem list_set_getD_self (l : List Yaml) (i : Nat) (h : i < l.length) :
    l.set i (l.getD i .null) = l := by
  induction l generalizing i with
  | nil => simp at h
  | cons hd tl ih =>
    cases i with
    | zero => simp
    | succ j =>
      simp only [List.length_cons, Nat.succ_lt_succ_iff] at h
      have hj := ih j h
      simp only [List.getD, List.get?_eq_getElem?] at hj ⊢
      simp [List.set, hj]

/-- The walk started from a freshly auto-vivified (empty) map can never
report an out-of-bounds array index: every bracketed segment fails
earlier, with `notAnArray`. -/
theorem applyPatchSegs_empty_no_oob (segs : List (List Char)) (v : Yaml)
    (i : Int) :
    (applyPatchSegs [] segs v).2 ≠ some (.arrayIndexOutOfBounds i) := by
  induction segs with
  | nil => simp [applyPatchSegs]
  | cons seg rest ih =>
    cases rest with
    | nil => simp [applyPatchSegs]
    | cons s2 rest2 =>
      rcases hO : findSub seg ['['] with _ | iOpen <;>
        rcases hC : findSub seg [']'] with _ | iClose <;>
          simp_all [applyPatchSegs, mapLookup] <;>
            rcases atoi ((seg.take iClose).drop (iOpen + 1)) with _ | idx <;>
              simp [mapLookup]

/-! Branch equations for one step of the segment walk (a non-final
segment followed by at least one more segment). -/

/-- Is the value a map? (used to state the mismatch branches). -/
def yamlIsMap : Yaml → Bool
  | .map _ => true
  | _ => false

/-- Is the value a sequence? -/
def yamlIsArr : Yaml → Bool
  | .arr _ => true
  | _ => false

/-- Plain segment, key absent: auto-vivification step. -/
theorem applyPatchSegs_viv (m : YamlMap) (seg s2 : List Char)
    (rest2 : List (List Char)) (v : Yaml)
    (hO : findSub seg ['['] = none ∨ findSub seg [']'] = none)
    (hL : mapLookup m (String.mk seg) = none) :
    applyPatchSegs m (seg :: s2 :: rest2) v =
      (mapInsert m (String.mk seg) (.map (applyPatchSegs [] (s2 :: rest2) v).1),
        (applyPatchSegs [] (s2 :: rest2) v).2) := by
  rcases hC : findSub seg [']'] with _ | iClose <;>
    rcases hO' : findSub seg ['['] with _ | iOpen <;>
      [skip; skip; skip; simp [hO', hC] at hO] <;>
        (conv_lhs => rw [applyPatchSegs.eq_def]) <;> simp only [hO', hC, hL]

/-- Plain segment, key bound to a map: descend step. -/
theorem applyPatchSegs_descend (m nested : YamlMap) (seg s2 : List Char)
    (rest2 : List (List Char)) (v : Yaml)
    (hO : findSub seg ['['] = none ∨ findSub seg [']'] = none)
    (hL : mapLookup m (String.mk seg) = some (.map nested)) :
    applyPatchSegs m (seg :: s2 :: rest2) v =
      (mapInsert m (String.mk seg) (.map (applyPatchSegs nested (s2 :: rest2) v).1),
        (applyPatchSegs nested (s2 :: rest2) v).2) := by
  rcases hC : findSub seg [']'] with _ | iClose <;>
    rcases hO' : findSub seg ['['] with _ | iOpen <;>
      [skip; skip; skip; simp [hO', hC] at hO] <;>
        (conv_lhs => rw [applyPatchSegs.eq_def]) <;> simp only [hO', hC, hL]

/-- Plain segment, key bound to a non-map value: type mismatch error. -/
theorem applyPatchSegs_notObject (m : YamlMap) (seg s2 : List Char)
    (rest2 : List (List Char)) (v w : Yaml)
    (hO : findSub seg ['['] = none ∨ findSub seg [']'] = none)
    (hL : mapLookup m (String.mk seg) = some w)
    (hw : yamlIsMap w = false) :
    applyPatchSegs m (seg :: s2 :: rest2) v =
      (m, some (.notAnObject (String.mk seg))) := by
  rcases hC : findSub seg [']'] with _ | iClose <;>
    rcases hO' : findSub seg ['['] with _ | iOpen <;>
      [skip; skip; skip; simp [hO', hC] at hO] <;>
        (conv_lhs => rw [applyPatchSegs.eq_def]) <;>
          cases w <;> simp [yamlIsMap] at hw <;> simp only [hO', hC, hL]

/-- Bracketed segment whose index part does not parse. -/
theorem applyPatchSegs_bracket_badIndex (m : YamlMap) (seg s2 : List Char)
    (rest2 : List (List Char)) (v : Yaml) (iOpen iClose : Nat)
    (hO : findSub seg ['['] = some iOpen)
    (hC : findSub seg [']'] = some iClose)
    (hA : atoi ((seg.take iClose).drop (iOpen + 1)) = none) :
    applyPatchSegs m (seg :: s2 :: rest2) v =
      (m, some (.invalidArrayIndex (String.mk seg))) := by
  conv_lhs => rw [applyPatchSegs.eq_def]
  simp only [hO, hC, hA]

/-- Bracketed segment whose array name is absent from the map. -/
theorem applyPatchSegs_bracket_noKey (m : YamlMap) (seg s2 : List Char)
    (rest2 : List (List Char)) (v : Yaml) (iOpen iClose : Nat) (index : Int)
    (hO : findSub seg ['['] = some iOpen)
    (hC : findSub seg [']'] = some iClose)
    (hA : atoi ((seg.take iClose).drop (iOpen + 1)) = some index)
    (hL : mapLookup m (String.mk (seg.take iOpen)) = none) :
    applyPatchSegs m (seg :: s2 :: rest2) v =
      (m, some (.notAnArray (String.mk (seg.take iOpen)))) := by
  conv_lhs => rw [applyPatchSegs.eq_def]
  simp only [hO, hC, hA, hL]

/-- Bracketed segment whose array name is bound to a non-sequence. -/
theorem applyPatchSegs_bracket_notArray (m : YamlMap) (seg s2 : List Char)
    (rest2 : List (List Char)) (v w : Yaml) (iOpen iClose : Nat) (index : Int)
    (hO : findSub seg ['['] = some iOpen)
    (hC : findSub seg [']'] = some iClose)
    (hA : atoi ((seg.take iClose).drop (iOpen + 1)) = some index)
    (hL : mapLookup m (String.mk (seg.take iOpen)) = some w)
    (hw : yamlIsArr w = false) :
    applyPatchSegs m (seg :: s2 :: rest2) v =
      (m, some (.notAnArray (String.mk (seg.take iOpen)))) := by
  conv_lhs => rw [applyPatchSegs.eq_def]
  cases w <;> simp [yamlIsArr] at hw <;> simp only [hO, hC, hA, hL]

/-- Bracketed segment with an out-of-range index. -/
theorem applyPatchSegs_bracket_oob (m : YamlMap) (seg s2 : List Char)
    (rest2 : List (List Char)) (v : Yaml) (iOpen iClose : Nat) (index : Int)
    (array : List Yaml)
    (hO : findSub seg ['['] = some iOpen)
    (hC : findSub seg [']'] = some iClose)
    (hA : atoi ((seg.take iClose).drop (iOpen + 1)) = some index)
    (hL : mapLookup m (String.mk (seg.take iOpen)) = some (.arr array))
    (hb : index < 0 ∨ (array.length : Int) ≤ index) :
    applyPatchSegs m (seg :: s2 :: rest2) v =
      (m, some (.arrayIndexOutOfBounds index)) := by
  conv_lhs => rw [applyPatchSegs.eq_def]
  simp only [hO, hC, hA, hL, if_pos hb]

/-- Bracketed segment addressing a non-map sequence element. -/
theorem applyPatchSegs_bracket_badElem (m : YamlMap) (seg s2 : List Char)
    (rest2 : List (List Char)) (v w : Yaml) (iOpen iClose : Nat) (index : Int)
    (array : List Yaml)
    (hO : findSub seg ['['] = some iOpen)
    (hC : findSub seg [']'] = some iClose)
    (hA : atoi ((seg.take iClose).drop (iOpen + 1)) = some index)
    (hL : mapLookup m (String.mk (seg.take iOpen)) = some (.arr array))
    (hb : ¬(index < 0 ∨ (array.length : Int) ≤ index))
    (hE : array.getD index.toNat .null = w)
    (hw : yamlIsMap w = false) :
    applyPatchSegs m (seg :: s2 :: rest2) v =
      (m, some (.notAnObjectElem (String.mk (seg.take iOpen)) index)) := by
  conv_lhs => rw [applyPatchSegs.eq_def]
  cases w <;> simp [yamlIsMap] at hw <;> simp only [hO, hC, hA, hL, if_neg hb, hE]

/-- Bracketed segment addressing a map element: descend into it and
write the updated element back into the sequence. -/
theorem applyPatchSegs_bracket_descend (m nextMap : YamlMap)
    (seg s2 : List Char) (rest2 : List (List Char)) (v : Yaml)
    (iOpen iClose : Nat) (index : Int) (array : List Yaml)
    (hO : findSub seg ['['] = some iOpen)
    (hC : findSub seg [']'] = some iClose)
    (hA : atoi ((seg.take iClose).drop (iOpen + 1)) = some index)
    (hL : mapLookup m (String.mk (seg.take iOpen)) = some (.arr array))
    (hb : ¬(index < 0 ∨ (array.length : Int) ≤ index))
    (hE : array.getD index.toNat .null = .map nextMap) :
    applyPatchSegs m (seg :: s2 :: rest2) v =
      (mapInsert m (String.mk (seg.take iOpen))
          (.arr (array.set index.toNat
            (.map (applyPatchSegs nextMap (s2 :: rest2) v).1))),
        (applyPatchSegs nextMap (s2 :: rest2) v).2) := by
  conv_lhs => rw [applyPatchSegs.eq_def]
  simp only [hO, hC, hA, hL, if_neg hb, hE]

/-- C3 core lemma: if the walk fails with `arrayIndexOutOfBounds`, the
returned document is the argument document, unchanged. -/
theorem applyPatchSegs_oob_unchanged (segs : List (List Char)) :
    ∀ (m : YamlMap) (v : Yaml) (i : Int),
      (applyPatchSegs m segs v).2 = some (.arrayIndexOutOfBounds i) →
      (applyPatchSegs m segs v).1 = m := by
  induction segs with
  | nil => intro m v i herr; simp [applyPatchSegs] at herr
  | cons seg rest ih =>
    intro m v i herr
    cases rest with
    | nil => simp [applyPatchSegs] at herr
    | cons s2 rest2 =>
      rcases hO : findSub seg ['['] with _ | iOpen <;>
        rcases hC : findSub seg [']'] with _ | iClose
      case some.some =>
        rcases hA : atoi ((seg.take iClose).drop (iOpen + 1)) with _ | index
        · rw [applyPatchSegs_bracket_badIndex m seg s2 rest2 v iOpen iClose hO hC hA]
        · rcases hL : mapLookup m (String.mk (seg.take iOpen)) with _ | w
          · rw [applyPatchSegs_bracket_noKey m seg s2 rest2 v iOpen iClose index hO hC hA hL]
          · cases w with
            | arr array =>
              by_cases hb : (index < 0 ∨ (array.length : Int) ≤ index)
              · rw [applyPatchSegs_bracket_oob m seg s2 rest2 v iOpen iClose index array
                  hO hC hA hL hb]
              · rcases hE : array.getD index.toNat .null with _ | sv | lv | nextMap <;>
                  [rw [applyPatchSegs_bracket_badElem m seg s2 rest2 v _ iOpen iClose index
                      array hO hC hA hL hb hE rfl];
                    rw [applyPatchSegs_bracket_badElem m seg s2 rest2 v _ iOpen iClose index
                      array hO hC hA hL hb hE rfl];
                    rw [applyPatchSegs_bracket_badElem m seg s2 rest2 v _ iOpen iClose index
                      array hO hC hA hL hb hE rfl];
                    skip]
                rw [applyPatchSegs_bracket_descend m nextMap seg s2 rest2 v iOpen iClose
                  index array hO hC hA hL hb hE] at herr ⊢
                simp only at herr ⊢
                rw [ih _ _ _ herr, ← hE,
                  list_set_getD_self _ _ (by omega), mapInsert_lookup_eq _ _ _ hL]
            | null =>
              rw [applyPatchSegs_bracket_notArray m seg s2 rest2 v _ iOpen iClose index
                hO hC hA hL rfl]
            | str sv =>
              rw [applyPatchSegs_bracket_notArray m seg s2 rest2 v _ iOpen iClose index
                hO hC hA hL rfl]
            | map mv =>
              rw [applyPatchSegs_bracket_notArray m seg s2 rest2 v _ iOpen iClose index
                hO hC hA hL rfl]
      all_goals {
        rcases hL : mapLookup m (String.mk seg) with _ | w
        · rw [applyPatchSegs_viv m seg s2 rest2 v (by simp [hO, hC]) hL] at herr ⊢
          simp only at herr ⊢
          exact absurd herr (applyPatchSegs_empty_no_oob _ _ _)
        · cases w with
          | map nested =>
            rw [applyPatchSegs_descend m nested seg s2 rest2 v (by simp [hO, hC]) hL] at herr ⊢
            simp only at herr ⊢
            rw [ih _ _ _ herr, mapInsert_lookup_eq _ _ _ hL]
          | null =>
            rw [applyPatchSegs_notObject m seg s2 rest2 v _ (by simp [hO, hC]) hL rfl]
          | str sv =>
            rw [applyPatchSegs_notObject m seg s2 rest2 v _ (by simp [hO, hC]) hL rfl]
          | arr lv =>
            rw [applyPatchSegs_notObject m seg s2 rest2 v _ (by simp [hO, hC]) hL rfl]
      }

/-- C2: for every document in which path `"a.b[i].c"` resolves — the root
map binds `sa` to a map `ma`, `ma` binds the bracketed segment's array
name to a sequence `xs` with at least `i+1` elements, and element `i` is
a map `mi` — `applyPatch` succeeds, replaces key `sc` of element `i`
with the given value verbatim, and rebuilds the document so that every
other binding of every map (and every other sequence element) is exactly
as before, as witnessed by the explicit `mapInsert`/`List.set`
reconstruction on the right-hand side. -/
theorem applyPatch_bracket_path_sets_value
    (m ma mi : YamlMap) (xs : List Yaml) (v : Yaml) (p : String)
    (sa seg sc : List Char) (kb : String) (iOpen iClose i : Nat)
    (hpath : splitDots p.toList = [sa, seg, sc])
    (hplain : hasBracketSeg sa = false)
    (hO : findSub seg ['['] = some iOpen)
    (hC : findSub seg [']'] = some iClose)
    (hname : String.mk (seg.take iOpen) = kb)
    (hidx : atoi ((seg.take iClose).drop (iOpen + 1)) = some (i : Int))
    (hka : mapLookup m (String.mk sa) = some (.map ma))
    (hkb : mapLookup ma kb = some (.arr xs))
    (hlen : i < xs.length)
    (helem : xs.getD i .null = .map mi) :
    applyPatch m p v =
      (mapInsert m (String.mk sa)
        (.map (mapInsert ma kb
          (.arr (xs.set i (.map (mapInsert mi (String.mk sc) v)))))), none) := by
  have hb : ¬((i : Int) < 0 ∨ (xs.length : Int) ≤ (i : Int)) := by omega
  have hE : xs.getD ((i : Int)).toNat .null = .map mi := by simpa using helem
  have h2 : applyPatchSegs mi [sc] v = (mapInsert mi (String.mk sc) v, none) := rfl
  have h1 : applyPatchSegs ma [seg, sc] v =
      (mapInsert ma kb (.arr (xs.set i (.map (mapInsert mi (String.mk sc) v)))), none) := by
    rw [applyPatchSegs_bracket_descend ma mi seg sc [] v iOpen iClose (i : Int) xs
      hO hC hidx (by rw [hname]; exact hkb) hb hE, h2]
    simp [hname]
  have h0 : applyPatchSegs m [sa, seg, sc] v =
      (mapInsert m (String.mk sa)
        (.map (mapInsert ma kb
          (.arr (xs.set i (.map (mapInsert mi (String.mk sc) v)))))), none) := by
    rcases hO1 : findSub sa ['['] with _ | o1 <;> rcases hC1 : findSub sa [']'] with _ | c1
    case some.some => simp [hasBracketSeg, hO1, hC1] at hplain
    all_goals rw [applyPatchSegs_descend m ma sa seg [sc] v (by simp [hO1, hC1]) hka, h1]
  simp only [applyPatch, hpath, h0]

theorem applyPatch_bracket_path_sets_value_witness :
    applyPatch [("a", .map [("b", .arr [.map [("c", .str "old"), ("d", .str "keep")]])])]
        "a.b[0].c" (.str "new") =
      ([("a", .map [("b", .arr [.map [("c", .str "new"), ("d", .str "keep")]])])], none) := by
  have h := applyPatch_bracket_path_sets_value
    [("a", .map [("b", .arr [.map [("c", .str "old"), ("d", .str "keep")]])])]
    [("b", .arr [.map [("c", .str "old"), ("d", .str "keep")]])]
    [("c", .str "old"), ("d", .str "keep")]
    [.map [("c", .str "old"), ("d", .str "keep")]]
    (.str "new") "a.b[0].c" ['a'] ['b', '[', '0', ']'] ['c'] "b" 1 3 0
    (by decide) (by decide) (by decide) (by decide) (by decide) (by decide)
    (by decide) (by decide) (by decide) (by decide)
  rw [h]
  decide

/-- C3: for every document and every path, if `applyPatch` fails with
`arrayIndexOutOfBounds`, the document after the call is identical to the
document before it: no binding was created, modified or auto-vivified
before the failure. -/
theorem applyPatch_oob_leaves_doc_unchanged (m : YamlMap) (p : String)
    (v : Yaml) (i : Int)
    (herr : (applyPatch m p v).2 = some (.arrayIndexOutOfBounds i)) :
    (applyPatch m p v).1 = m :=
  applyPatchSegs_oob_unchanged _ _ _ _ herr

theorem applyPatch_oob_leaves_doc_unchanged_witness :
    (applyPatch [("b", .arr [.map [("c", .str "0")]])] "b[5].c" .null).2 =
        some (.arrayIndexOutOfBounds 5) ∧
    (applyPatch [("b", .arr [.map [("c", .str "0")]])] "b[5].c" .null).1 =
        [("b", .arr [.map [("c", .str "0")]])] :=
  ⟨by decide, applyPatch_oob_leaves_doc_unchanged _ _ _ 5 (by decide)⟩

/-- C4: for every document whose root map has no key "x",
`applyPatch(document, "x.y.z", v)` succeeds, auto-vivifying empty maps at
"x" and "x.y" and setting "z" of the inner map to `v`. -/
theorem applyPatch_autovivifies_missing_segments (m : YamlMap) (v : Yaml)
    (h : mapLookup m "x" = none) :
    applyPatch m "x.y.z" v =
      (mapInsert m "x" (.map [("y", .map [("z", v)])]), none) := by
  have h1 : applyPatchSegs [] [['y'], ['z']] v =
      ([("y", Yaml.map [("z", v)])], none) := rfl
  show applyPatchSegs m (splitDots "x.y.z".toList) v = _
  rw [show splitDots "x.y.z".toList = [['x'], ['y'], ['z']] from rfl,
    applyPatchSegs_viv m ['x'] ['y'] [['z']] v (Or.inl rfl) h, h1]

theorem applyPatch_autovivifies_missing_segments_witness :
    applyPatch [("k", .str "w")] "x.y.z" (.str "7") =
      ([("k", .str "w"), ("x", .map [("y", .map [("z", .str "7")])])], none) := by
  have h := applyPatch_autovivifies_missing_segments [("k", .str "w")] (.str "7") (by decide)
  rw [h]
  decide

/-- C9: for every document and every path that consists of a single
segment containing a bracketed index (as in the final segment of
"spec.template.spec.containers[0]"), `applyPatch` performs no index
parsing, bounds check or element replacement: it assigns the value under
the literal map key equal to the whole segment string. -/
theorem applyPatch_final_segment_literal_key (m : YamlMap) (p : String)
    (s : List Char) (v : Yaml)
    (hpath : splitDots p.toList = [s])
    (hbr : hasBracketSeg s = true) :
    applyPatch m p v = (mapInsert m (String.mk s) v, none) := by
  simp only [applyPatch, hpath, applyPatchSegs]

theorem applyPatch_final_segment_literal_key_witness :
    applyPatch [("containers", Yaml.arr [Yaml.str "a"])] "containers[0]" (Yaml.str "x") =
      ([("containers", Yaml.arr [Yaml.str "a"]), ("containers[0]", Yaml.str "x")], none) := by
  have h := applyPatch_final_segment_literal_key [("containers", .arr [.str "a"])]
    "containers[0]" "containers[0]".toList (.str "x") (by decide) (by decide)
  rw [h]
  decide

/-! ### C1 and C5: loader auto-detection and merge-by-name -/

/-- The fragment-shaped payload `{"spec": {"image": "v2"}}`: no `path`
or `value` field. -/
def c1Payload : Yaml := .map [("spec", .map [("image", .str "v2")])]

/-- A small document with a `spec` map. -/
def c1Doc : YamlMap := [("spec", .map [("image", .str "v1")])]

/-- C1 (counterexample): the spec's auto-detection rule classifies the
payload `{"spec": {"image": "v2"}}` as a structural-merge fragment, but
`loadPatchFromFile` decodes it as a `{path, value}` descriptor with
`path = ""` and `value = nil` (unknown fields ignored, absent fields at
zero values), and the pipeline then applies it as a path patch — setting
the literal root key `""` to `null` — which is not the structural merge
of the payload into the document. -/
theorem loadPatchFromFile_no_fragment_detection_cex :
    loadPatchSpec c1Payload = .fragment c1Payload ∧
    loadPatchFromFile c1Payload = some ⟨"", .null⟩ ∧
    applyPatchToYaml c1Doc ⟨"", .null⟩ =
      ([("spec", .map [("image", .str "v1")]), ("", .null)], none) ∧
    Yaml.map (applyPatchToYaml c1Doc ⟨"", .null⟩).1 ≠ mergeYaml (.map c1Doc) c1Payload := by
  refine ⟨by decide, by decide, by decide, ?_⟩
  have hm : mergeYaml (.map c1Doc) c1Payload = .map [("spec", .map [("image", .str "v2")])] := by
    simp [c1Doc, c1Payload, mergeYaml, mergeInto, mapLookup, mapInsert]
  rw [hm]
  decide

/-- C1 (amended): the patch loader performs no auto-detection.
`loadPatchFromFile` decodes every JSON-object payload as the
`{path, value}` struct — a payload without a `path` field (such as a
document fragment) loads as a path descriptor with `path = ""` and
`value` defaulted from the `value` field (or `nil`), and is never
treated as a structural-merge fragment. -/
theorem loadPatchFromFile_always_path_decode (kvs : YamlMap)
    (h : mapLookup kvs "path" = none) :
    loadPatchFromFile (.map kvs) = some ⟨"", (mapLookup kvs "value").getD .null⟩ := by
  simp [loadPatchFromFile, h]

theorem loadPatchFromFile_always_path_decode_witness :
    loadPatchFromFile (.map [("spec", .str "x")]) = some ⟨"", .null⟩ := by
  have h := loadPatchFromFile_always_path_decode [("spec", .str "x")] (by decide)
  rw [h]
  decide

/-- The claim's document: one container `{name: "c", image: "v1",
command: ["echo"]}`. -/
def mergeDoc5 : Yaml :=
  .map [("spec", .map [("template", .map [("spec", .map [("containers",
    .arr [.map [("name", .str "c"), ("image", .str "v1"),
      ("command", .arr [.str "echo"])]])])])])]

/-- The claim's structural-merge fragment
`{spec:{template:{spec:{containers:[{name:"c",image:"v2"}]}}}}`. -/
def mergeFrag5 : Yaml :=
  .map [("spec", .map [("template", .map [("spec", .map [("containers",
    .arr [.map [("name", .str "c"), ("image", .str "v2")]])])])])]

/-- C5: merging the fragment into the document matches the container
element by its `name` merge key: the result's first container has
`image = "v2"` while its `command` field is still `["echo"]` — the
sequence is not replaced wholesale. -/
theorem strategicMerge_containers_by_name :
    containerField (mergeYaml mergeDoc5 mergeFrag5) "image" = some (.str "v2") ∧
    containerField (mergeYaml mergeDoc5 mergeFrag5) "command" = some (.arr [.str "echo"]) := by
  have hm : mergeYaml mergeDoc5 mergeFrag5 =
      .map [("spec", .map [("template", .map [("spec", .map [("containers",
        .arr [.map [("name", .str "c"), ("image", .str "v2"),
          ("command", .arr [.str "echo"])]])])])])] := by
    simp [mergeDoc5, mergeFrag5, mergeYaml, mergeInto, mergeListByName,
      mergeOneByName, nameOf, mapLookup, mapInsert]
  rw [hm]
  decide

/-! ### The document codec (`jobToYaml`, src/main.go)

`jobToYaml` marshals the typed Job with `sigs.k8s.io/yaml` and splices
the owner references back as a comment block. The byte-level splicing
(`strings.ReplaceAll`, `strings.TrimSuffix`, `bytes.Index`,
`slices.Insert`) is embedded verbatim over `List Char`; the library
marshalling itself is not part of this repository and is modelled from
the spec (canonical YAML, deterministic key order), with the concrete
line layout fixed by the repository's own golden test `TestJobToYaml`. -/

/-- Go byte slices / strings, as character lists (ASCII output only). -/
abbrev Bytes := List Char

/-- Embeds `metav1.OwnerReference`, restricted to the fields this repository
sets (`blockOwnerDeletion` is modelled as a plain boolean). -/
structure OwnerReference where
  apiVersion : String
  kind : String
  name : String
  uid : String
  blockOwnerDeletion : Bool
  deriving DecidableEq, Repr

/-- Embeds `metav1.ObjectMeta`, restricted to the fields this repository sets.
`ns` is the `Namespace` field (`namespace` is a Lean keyword). -/
structure ObjectMeta where
  name : String
  ns : String
  ownerReferences : List OwnerReference
  deriving DecidableEq, Repr

/-- Embeds `batchv1.Job`, with the job spec and status kept as their already
marshalled lines (`specLines`): the codec claims only concern the
metadata section and the byte-level splice. -/
structure Job where
  apiVersion : String
  kind : String
  metadata : ObjectMeta
  specLines : List Bytes
  deriving DecidableEq, Repr

/-- Concatenate newline-terminated lines (every line, including the
last, is followed by '\n', as in the marshaller's output). -/
def unlines : List Bytes → Bytes
  | [] => []
  | l :: rest => l ++ '\n' :: unlines rest

/-- Modelled from the spec: the lines `yaml.Marshal` produces for one
owner reference inside a list (field order alphabetical, as in the
golden test; an empty `uid` renders as `""`). -/
def ownerRefEntryLines (r : OwnerReference) : List Bytes :=
  [("- apiVersion: ".toList ++ r.apiVersion.toList),
   ("  blockOwnerDeletion: ".toList ++
     (if r.blockOwnerDeletion then "true" else "false").toList),
   ("  kind: ".toList ++ r.kind.toList),
   ("  name: ".toList ++ r.name.toList),
   ("  uid: ".toList ++ (if r.uid = "" then "\"\"".toList else r.uid.toList))]

def ownerRefsBody : List OwnerReference → List Bytes
  | [] => []
  | r :: rest => ownerRefEntryLines r ++ ownerRefsBody rest

/-- Modelled from the spec: `yaml.Marshal(map[string]any{"ownerReferences":
refs})` — a nil/empty list marshals as `ownerReferences: null`. -/
def ownerRefLines (refs : List OwnerReference) : List Bytes :=
  match refs with
  | [] => ["ownerReferences: null".toList]
  | _ => "ownerReferences:".toList :: ownerRefsBody refs

/-- The metadata lines that `yaml.Marshal` emits before the namespace
line (modelled from the spec; layout per the golden test — empty string
fields are omitted by `omitempty`). -/
def metaPreLines (j : Job) : List Bytes :=
  ["apiVersion: ".toList ++ j.apiVersion.toList,
   "kind: ".toList ++ j.kind.toList,
   "metadata:".toList,
   "  creationTimestamp: null".toList] ++
  (if j.metadata.name = "" then []
   else [("  name: ".toList ++ j.metadata.name.toList)])

/-- The `namespace:` line of the metadata section. -/
def nsLine (j : Job) : Bytes := "  namespace: ".toList ++ j.metadata.ns.toList

/-- Modelled from the spec: the full line sequence of
`yaml.Marshal(job)` — header, metadata (omitting empty fields, with the
owner-reference block present only when the list is non-empty), then the
job's spec/status lines. -/
def marshalJobLines (j : Job) : List Bytes :=
  metaPreLines j ++
  (if j.metadata.ns = "" then [] else [nsLine j]) ++
  (match j.metadata.ownerReferences with
   | [] => []
   | refs => "  ownerReferences:".toList ::
       (ownerRefsBody refs).map (fun l => "  ".toList ++ l)) ++
  j.specLines

/-- The constant `commentForOwnerRefs`. -/
def commentPre : Bytes := "  # ".toList

/-- Embeds `strings.ReplaceAll(s, "\n", repl)`: for the single-character
pattern, occurrences are disjoint and left-to-right replacement is
character-wise. -/
def replaceNl : Bytes → Bytes → Bytes
  | [], _ => []
  | c :: t, repl => (if c = '\n' then repl else [c]) ++ replaceNl t repl

/-- Does `suf` occur at the end of `s`? -/
def endsB (suf s : Bytes) : Bool := startsB suf.reverse s.reverse

/-- Embeds `strings.TrimSuffix`. -/
def trimSuffixB (s suf : Bytes) : Bytes :=
  if endsB suf s then s.take (s.length - suf.length) else s

/-- The commented owner-reference block built by `jobToYaml`:
`"  # " + ReplaceAll(refsYaml, "\n", "\n  # ")`, with the trailing
`"  # "` trimmed. -/
def commentedOwnerRefs (refsYaml : Bytes) : Bytes :=
  trimSuffixB (commentPre ++ replaceNl refsYaml ('\n' :: commentPre)) commentPre

/-- The needle `[]byte("namespace: ")`. -/
def needleNs : Bytes := "namespace: ".toList

/-- Embeds `slices.Insert(data, idx, block...)` for an in-range index. -/
def insertAtB (data : Bytes) (idx : Nat) (block : Bytes) : Bytes :=
  data.take idx ++ block ++ data.drop idx

/-- The index arithmetic and insertion of `jobToYaml`:
`namespaceInd := bytes.Index(data, []byte("namespace: "))`,
`namespaceLineInd := bytes.Index(data[namespaceInd:], []byte("\n")) +
namespaceInd`, `slices.Insert(data, namespaceLineInd+1, commented...)`.
Go's `bytes.Index` returns -1 on a miss, making `data[namespaceInd:]`
panic, and `slices.Insert` panics on an out-of-range index; both panic
branches are modelled as `none`. -/
def spliceCommented (data commented : Bytes) : Option Bytes :=
  match findSub data needleNs with
  | none => none
  | some nsInd =>
    let nlRel : Int :=
      match findSub (data.drop nsInd) ['\n'] with
      | none => -1
      | some k => (k : Int)
    let lineInd : Int := nlRel + (nsInd : Int)
    if 0 ≤ lineInd + 1 ∧ lineInd + 1 ≤ (data.length : Int) then
      some (insertAtB data (lineInd + 1).toNat commented)
    else none

/-- Embeds `jobToYaml(job)` from src/main.go: marshal the owner references
separately, null out `job.ObjectMeta.OwnerReferences` (an in-place
mutation of the argument, returned here as the first component), marshal
the job, and splice the commented owner references in after the
`namespace:` line. -/
def jobToYaml (job : Job) : Job × Option Bytes :=
  let refsYaml := unlines (ownerRefLines job.metadata.ownerReferences)
  let commented := commentedOwnerRefs refsYaml
  let job' := { job with metadata := { job.metadata with ownerReferences := [] } }
  let data := unlines (marshalJobLines job')
  (job', spliceCommented data commented)

/-- The job with its owner references removed. -/
def eraseRefs (j : Job) : Job :=
  { j with metadata := { j.metadata with ownerReferences := [] } }

/-! ### Decoding (claim side)

Decoding the emitted bytes back into a typed workload is done by the
yaml library, outside this repository; it is modelled from the spec as a
line-based parser that inverts the canonical marshalling, applied after
dropping the injected comment block ("ignoring the injected comment
block", as the round-trip claim puts it). -/

/-- Split a byte stream into its newline-terminated lines (the final
newline closes the last line; an unterminated tail forms a line of its
own). -/
def splitNl : Bytes → List Bytes
  | [] => []
  | c :: r =>
    if c = '\n' then [] :: splitNl r
    else
      match splitNl r with
      | [] => [[c]]
      | l :: ls => (c :: l) :: ls

/-- Strip a known leading byte sequence. -/
def stripB (pre l : Bytes) : Option Bytes :=
  if startsB pre l then some (l.drop pre.length) else none

/-- Parse one optional `pre`-prefixed line (an `omitempty` field):
absent lines yield the empty string. -/
def takeOpt (pre : Bytes) (ls : List Bytes) : String × List Bytes :=
  match ls with
  | [] => ("", [])
  | l :: r =>
    match stripB pre l with
    | some v => (String.mk v, r)
    | none => ("", ls)

/-- Parse consecutive five-line owner-reference entries (the in-body
form, indented two further spaces). -/
def parseRefGroups : List Bytes → List OwnerReference × List Bytes
  | l1 :: l2 :: l3 :: l4 :: l5 :: rest =>
    match stripB "  - apiVersion: ".toList l1,
        stripB "    blockOwnerDeletion: ".toList l2,
        stripB "    kind: ".toList l3,
        stripB "    name: ".toList l4,
        stripB "    uid: ".toList l5 with
    | some av, some bod, some kd, some nm, some uid =>
      let r : OwnerReference :=
        ⟨String.mk av, String.mk kd, String.mk nm,
          (if uid = "\"\"".toList then "" else String.mk uid), bod = "true".toList⟩
      let (rs, rest') := parseRefGroups rest
      (r :: rs, rest')
    | _, _, _, _, _ => ([], l1 :: l2 :: l3 :: l4 :: l5 :: rest)
  | ls => ([], ls)

/-- Modelled from the spec: decode the canonical line layout back into
the typed workload (inverse of `marshalJobLines` on clean jobs). -/
def decodeLines (ls : List Bytes) : Option Job :=
  match ls with
  | l0 :: l1 :: l2 :: l3 :: rest =>
    match stripB "apiVersion: ".toList l0, stripB "kind: ".toList l1 with
    | some av, some kd =>
      if l2 = "metadata:".toList ∧ l3 = "  creationTimestamp: null".toList then
        let (nm, rest1) := takeOpt "  name: ".toList rest
        let (nsv, rest2) := takeOpt "  namespace: ".toList rest1
        match rest2 with
        | orHead :: orRest =>
          if orHead = "  ownerReferences:".toList then
            let (refs, rest3) := parseRefGroups orRest
            some ⟨String.mk av, String.mk kd, ⟨nm, nsv, refs⟩, rest3⟩
          else some ⟨String.mk av, String.mk kd, ⟨nm, nsv, []⟩, rest2⟩
        | [] => some ⟨String.mk av, String.mk kd, ⟨nm, nsv, []⟩, []⟩
      else none
    | _, _ => none
  | _ => none

/-- Drop the injected comment block: every line prefixed `"  # "`. -/
def stripComments (data : Bytes) : List Bytes :=
  (splitNl data).filter (fun l => !(startsB commentPre l))

/-- Decode emitted bytes, ignoring the injected comment block. -/
def decodeBytes (data : Bytes) : Option Job :=
  decodeLines (stripComments data)

/-- Substring occurrence as a boolean. -/
def hasSubB (l needle : Bytes) : Bool := (findSub l needle).isSome

/-- No newline byte in the line. -/
def noNlB (l : Bytes) : Bool := l.all fun c => !(decide (c = '\n'))

/-- The needle `[]byte("ownerReferences")`. -/
def needleOR : Bytes := "ownerReferences".toList

/-- Well-formedness of a job's string fields for the byte-level
arguments: a non-empty namespace; no embedded newlines; no line before
the namespace line contains the `"namespace: "` needle; no body line
contains `"ownerReferences"`; spec lines are top-level (not indented),
so they cannot be mistaken for metadata fields or comments. -/
def cleanJobB (j : Job) : Bool :=
  (!(j.metadata.ns == "")) &&
  ((metaPreLines j).all fun l =>
    noNlB l && !(hasSubB l needleNs) && !(hasSubB l needleOR)) &&
  (noNlB (nsLine j)) && (!(hasSubB (nsLine j) needleOR)) &&
  (j.specLines.all fun l =>
    noNlB l && !(startsB "  ".toList l) && !(hasSubB l needleOR)) &&
  (j.metadata.ownerReferences.all fun r =>
    (ownerRefEntryLines r).all fun l => noNlB l)

/-- C10: `jobToYaml` mutates its argument: after the call the job's
`ObjectMeta.OwnerReferences` is nil, while every other field of the
argument is untouched — a caller reusing the same job value observes the
owner references removed. -/
theorem jobToYaml_mutates_job_ownerRefs_nil (j : Job) :
    (jobToYaml j).1.metadata.ownerReferences = [] ∧
    (jobToYaml j).1.metadata.name = j.metadata.name ∧
    (jobToYaml j).1.metadata.ns = j.metadata.ns ∧
    (jobToYaml j).1.apiVersion = j.apiVersion ∧
    (jobToYaml j).1.kind = j.kind ∧
    (jobToYaml j).1.specLines = j.specLines :=
  ⟨rfl, rfl, rfl, rfl, rfl, rfl⟩

/-! ### Byte-string lemmas for the splice -/

theorem unlines_append (a b : List Bytes) :
    unlines (a ++ b) = unlines a ++ unlines b := by
  induction a with
  | nil => simp [unlines]
  | cons l rest ih => simp [unlines, ih]

theorem startsB_self_append (p t : Bytes) : startsB p (p ++ t) = true := by
  induction p with
  | nil => simp [startsB]
  | cons c ct ih => simp [startsB, ih]

theorem startsB_length (p s : Bytes) (h : startsB p s = true) :
    p.length ≤ s.length := by
  induction p generalizing s with
  | nil => simp
  | cons c ct ih =>
    cases s with
    | nil => simp [startsB] at h
    | cons d dt =>
      simp only [startsB] at h
      by_cases hc : c = d
      · rw [if_pos hc] at h
        simpa using ih dt h
      · rw [if_neg hc] at h
        exact absurd h (by simp)

theorem startsB_append_nl (needle l r : Bytes) (hnl : '\n' ∉ needle) :
    startsB needle (l ++ '\n' :: r) = startsB needle l := by
  induction needle generalizing l with
  | nil => simp [startsB]
  | cons n nt ih =>
    have hn : n ≠ '\n' := fun h => hnl (h ▸ List.mem_cons_self n nt)
    have hnt : '\n' ∉ nt := fun h => hnl (List.mem_cons_of_mem n h)
    cases l with
    | nil =>
      show startsB (n :: nt) ('\n' :: r) = startsB (n :: nt) []
      simp only [startsB]
      rw [if_neg hn]
    | cons c ct =>
      show startsB (n :: nt) (c :: (ct ++ '\n' :: r)) = startsB (n :: nt) (c :: ct)
      simp only [startsB]
      by_cases hc : n = c
      · rw [if_pos hc, if_pos hc, ih ct hnt]
      · rw [if_neg hc, if_neg hc]

theorem findSub_line_append (needle l r : Bytes) (hne : needle ≠ [])
    (hnl : '\n' ∉ needle) :
    findSub (l ++ '\n' :: r) needle =
      match findSub l needle with
      | some k => some k
      | none => (findSub r needle).map (· + (l.length + 1)) := by
  induction l with
  | nil =>
    obtain ⟨n, nt, rfl⟩ : ∃ n nt, needle = n :: nt := by
      cases needle with
      | nil => exact absurd rfl hne
      | cons n nt => exact ⟨n, nt, rfl⟩
    have hn : n ≠ '\n' := fun h => hnl (h ▸ List.mem_cons_self n nt)
    show findSub ('\n' :: r) (n :: nt) = _
    simp only [findSub, startsB]
    have hcond : (if n = '\n' then startsB nt r else false) = false := by
      rw [if_neg hn]
    simp only [hcond]
    simp
  | cons c ct ih =>
    show findSub (c :: (ct ++ '\n' :: r)) needle = _
    simp only [findSub]
    rw [show (c :: (ct ++ '\n' :: r) : Bytes) = (c :: ct) ++ '\n' :: r from rfl,
      startsB_append_nl needle (c :: ct) r hnl, ih]
    by_cases hs : startsB needle (c :: ct) = true
    · simp [hs]
    · simp only [Bool.not_eq_true] at hs
      rcases hf : findSub ct needle with _ | k
      · rcases hq : findSub r needle with _ | q <;>
          simp [hs, hf, hq] <;> omega
      · simp [hs, hf]

theorem findSub_le (l needle : Bytes) (k : Nat) (h : findSub l needle = some k) :
    k + needle.length ≤ l.length := by
  induction l generalizing k with
  | nil =>
    simp only [findSub] at h
    by_cases hn : needle = []
    · rw [if_pos hn] at h
      cases h
      simp [hn]
    · rw [if_neg hn] at h
      cases h
  | cons c t ih =>
    simp only [findSub] at h
    by_cases hs : startsB needle (c :: t) = true
    · rw [if_pos hs] at h
      cases h
      simpa using startsB_length needle (c :: t) hs
    · rw [if_neg hs] at h
      rcases hf : findSub t needle with _ | k'
      · rw [hf] at h
        cases h
      · rw [hf] at h
        simp at h
        have := ih k' hf
        simp only [List.length_cons]
        omega

theorem findSub_unlines_skip (pre : List Bytes) (tail needle : Bytes)
    (hne : needle ≠ []) (hnl : '\n' ∉ needle)
    (hpre : ∀ l ∈ pre, '\n' ∉ l ∧ findSub l needle = none) :
    findSub (unlines pre ++ tail) needle =
      (findSub tail needle).map (· + (unlines pre).length) := by
  induction pre with
  | nil =>
    rw [show unlines ([] : List Bytes) = [] from rfl, List.nil_append]
    rcases hf : findSub tail needle with _ | k <;> simp [hf]
  | cons l rest ih =>
    obtain ⟨hlnl, hlnone⟩ := hpre l (List.mem_cons_self l rest)
    have hrest : ∀ l' ∈ rest, '\n' ∉ l' ∧ findSub l' needle = none :=
      fun l' hl' => hpre l' (List.mem_cons_of_mem l hl')
    have hsplit : unlines (l :: rest) ++ tail = l ++ '\n' :: (unlines rest ++ tail) := by
      simp [unlines]
    rw [hsplit, findSub_line_append needle l (unlines rest ++ tail) hne hnl, hlnone]
    rw [ih hrest]
    rcases hf : findSub tail needle with _ | k <;> simp [hf, unlines] <;> omega

theorem findSub_first_nl (l r : Bytes) (hl : '\n' ∉ l) :
    findSub (l ++ '\n' :: r) ['\n'] = some l.length := by
  induction l with
  | nil => simp [findSub, startsB]
  | cons c ct ih =>
    have hc : c ≠ '\n' := fun h => hl (h ▸ List.mem_cons_self c ct)
    have hct : '\n' ∉ ct := fun h => hl (List.mem_cons_of_mem c h)
    show findSub (c :: (ct ++ '\n' :: r)) ['\n'] = some (c :: ct).length
    simp only [findSub, startsB]
    have hcc : ¬('\n' = c) := fun h => hc h.symm
    simp [hcc, ih hct]

theorem findSub_cons_of_not_starts (c : Char) (t needle : Bytes)
    (h : startsB needle (c :: t) = false) :
    findSub (c :: t) needle = (findSub t needle).map (· + 1) := by
  simp [findSub, h]

theorem findSub_self_append (p t : Bytes) (hne : p ≠ []) :
    findSub (p ++ t) p = some 0 := by
  cases p with
  | nil => exact absurd rfl hne
  | cons c pt =>
    show findSub (c :: (pt ++ t)) (c :: pt) = some 0
    simp only [findSub]
    rw [show (c :: (pt ++ t) : Bytes) = (c :: pt) ++ t from rfl, startsB_self_append]
    simp

theorem findSub_nsline (t : Bytes) :
    findSub ("  namespace: ".toList ++ t) needleNs = some 2 := by
  have hsp : ∀ u : Bytes, startsB needleNs (' ' :: u) = false := by
    intro u
    rw [show (needleNs : Bytes) = 'n' :: "amespace: ".toList from by decide]
    simp only [startsB]
    rw [if_neg (by decide)]
  have hsplitStr : ("  namespace: ".toList : Bytes) = ' ' :: ' ' :: needleNs := by decide
  rw [show ("  namespace: ".toList ++ t : Bytes) = ' ' :: ' ' :: (needleNs ++ t) from by
    rw [hsplitStr]; simp]
  rw [findSub_cons_of_not_starts _ _ _ (hsp _), findSub_cons_of_not_starts _ _ _ (hsp _),
    findSub_self_append needleNs t (by decide)]
  simp

theorem replaceNl_append (a b repl : Bytes) :
    replaceNl (a ++ b) repl = replaceNl a repl ++ replaceNl b repl := by
  induction a with
  | nil => simp [replaceNl]
  | cons c t ih =>
    show replaceNl (c :: (t ++ b)) repl = _
    simp only [replaceNl, ih]
    by_cases hc : c = '\n' <;> simp [hc]

theorem replaceNl_no_nl (l repl : Bytes) (hl : '\n' ∉ l) :
    replaceNl l repl = l := by
  induction l with
  | nil => rfl
  | cons c t ih =>
    have hc : c ≠ '\n' := fun h => hl (h ▸ List.mem_cons_self c t)
    have ht : '\n' ∉ t := fun h => hl (List.mem_cons_of_mem c h)
    simp [replaceNl, hc, ih ht]

theorem endsB_append (x suf : Bytes) : endsB suf (x ++ suf) = true := by
  simp only [endsB, List.reverse_append]
  exact startsB_self_append suf.reverse x.reverse

theorem trimSuffixB_append (x suf : Bytes) : trimSuffixB (x ++ suf) suf = x := by
  simp only [trimSuffixB, endsB_append, if_pos]
  have : (x ++ suf).length - suf.length = x.length := by simp
  rw [this, List.take_left]

theorem rep_unlines (ls : List Bytes) (h : ∀ l ∈ ls, '\n' ∉ l) :
    commentPre ++ replaceNl (unlines ls) ('\n' :: commentPre) =
      unlines (ls.map (fun l => commentPre ++ l)) ++ commentPre := by
  induction ls with
  | nil => simp [unlines, replaceNl]
  | cons l rest ih =>
    have hl := h l (List.mem_cons_self l rest)
    have hrest : ∀ l' ∈ rest, '\n' ∉ l' := fun l' hl' => h l' (List.mem_cons_of_mem l hl')
    have ih' := ih hrest
    show commentPre ++ replaceNl (l ++ '\n' :: unlines rest) ('\n' :: commentPre) = _
    rw [replaceNl_append, replaceNl_no_nl l _ hl,
      show replaceNl ('\n' :: unlines rest) ('\n' :: commentPre) =
        ('\n' :: commentPre) ++ replaceNl (unlines rest) ('\n' :: commentPre) from by
          simp [replaceNl]]
    simp only [List.map_cons, unlines, List.append_assoc, List.cons_append]
    rw [ih']

theorem commented_unlines (ls : List Bytes) (h : ∀ l ∈ ls, '\n' ∉ l) :
    commentedOwnerRefs (unlines ls) =
      unlines (ls.map (fun l => commentPre ++ l)) := by
  rw [commentedOwnerRefs, rep_unlines ls h, trimSuffixB_append]

theorem splitNl_line (l r : Bytes) (hl : '\n' ∉ l) :
    splitNl (l ++ '\n' :: r) = l :: splitNl r := by
  induction l with
  | nil => simp [splitNl]
  | cons c ct ih =>
    have hc : c ≠ '\n' := fun h => hl (h ▸ List.mem_cons_self c ct)
    have hct : '\n' ∉ ct := fun h => hl (List.mem_cons_of_mem c h)
    show splitNl (c :: (ct ++ '\n' :: r)) = (c :: ct) :: splitNl r
    rw [show splitNl (c :: (ct ++ '\n' :: r)) =
        (if c = '\n' then [] :: splitNl (ct ++ '\n' :: r)
         else match splitNl (ct ++ '\n' :: r) with
           | [] => [[c]]
           | l :: ls => (c :: l) :: ls) from rfl,
      if_neg hc, ih hct]

theorem splitNl_unlines (ls : List Bytes) (h : ∀ l ∈ ls, '\n' ∉ l) :
    splitNl (unlines ls) = ls := by
  induction ls with
  | nil => rfl
  | cons l rest ih =>
    have hl := h l (List.mem_cons_self l rest)
    have hrest : ∀ l' ∈ rest, '\n' ∉ l' := fun l' hl' => h l' (List.mem_cons_of_mem l hl')
    show splitNl (l ++ '\n' :: unlines rest) = l :: rest
    rw [splitNl_line l (unlines rest) hl, ih hrest]

theorem stripB_pre_app (p v : Bytes) : stripB p (p ++ v) = some v := by
  simp [stripB, startsB_self_append, List.drop_left]

/-- Bridge: `noNlB` to non-membership. -/
theorem noNl_of_noNlB (l : Bytes) (h : noNlB l = true) : '\n' ∉ l := by
  intro hm
  have := List.all_eq_true.mp h _ hm
  simp at this

/-- Bridge: `hasSubB` false to `findSub` none. -/
theorem findSub_none_of_hasSubB_false (l n : Bytes) (h : hasSubB l n = false) :
    findSub l n = none := by
  unfold hasSubB at h
  rcases hf : findSub l n with _ | k
  · rfl
  · rw [hf] at h
    simp at h

theorem spliceCommented_in_range (data commented : Bytes) (i k : Nat)
    (h1 : findSub data needleNs = some i)
    (h2 : findSub (data.drop i) ['\n'] = some k) :
    i + k + 1 ≤ data.length ∧
    spliceCommented data commented = some (insertAtB data (i + k + 1) commented) := by
  have hk := findSub_le (data.drop i) ['\n'] k h2
  have hi := findSub_le data needleNs i h1
  have hlen11 : needleNs.length = 11 := by decide
  have hdl : (data.drop i).length = data.length - i := by simp
  have hbound : i + k + 1 ≤ data.length := by
    simp only [List.length_cons, List.length_nil] at hk
    omega
  refine ⟨hbound, ?_⟩
  simp only [spliceCommented, h1, h2]
  split
  next hcond =>
    have ht : (((k : Int) + (i : Int)) + 1).toNat = i + k + 1 := by omega
    rw [ht]
  next hcond =>
    exfalso
    apply hcond
    constructor <;> omega

/-- C8: whenever the marshalled bytes contain the substring
`"namespace: "` (first occurrence at index `i`) and a newline occurs at
relative index `k` after it, every byte-index computation of the
comment-splicing step is within bounds — the insertion position is
`i + k + 1 ≤ data.length` — so the out-of-range (panic) branch of the
embedded splice is not taken and the splice succeeds; without the
precondition the embedding returns `none` (the Go code panics or
splices at an unspecified position). -/
theorem jobToYaml_splice_indices_in_bounds (data commented : Bytes) (i k : Nat)
    (h1 : findSub data needleNs = some i)
    (h2 : findSub (data.drop i) ['\n'] = some k) :
    i + k + 1 ≤ data.length ∧
    spliceCommented data commented = some (insertAtB data (i + k + 1) commented) :=
  spliceCommented_in_range data commented i k h1 h2

theorem jobToYaml_splice_indices_in_bounds_witness :
    2 + 12 + 1 ≤ ("  namespace: d\nspec: {}\n".toList : Bytes).length ∧
    spliceCommented "  namespace: d\nspec: {}\n".toList "  # o\n".toList =
      some (insertAtB "  namespace: d\nspec: {}\n".toList (2 + 12 + 1) "  # o\n".toList) :=
  jobToYaml_splice_indices_in_bounds _ _ 2 12 (by decide) (by decide)

/-! ### Structure of the emitted byte stream -/

theorem drop_len_add (a b : Bytes) (n : Nat) :
    (a ++ b).drop (a.length + n) = b.drop n := by
  induction a with
  | nil => simp
  | cons c t ih => simpa [Nat.succ_add] using ih

theorem insertAtB_left (a b block : Bytes) :
    insertAtB (a ++ b) a.length block = a ++ block ++ b := by
  simp [insertAtB, List.take_left, List.drop_left]

theorem marshal_erased (j : Job) (hns : j.metadata.ns ≠ "") :
    marshalJobLines (eraseRefs j) = metaPreLines j ++ [nsLine j] ++ j.specLines := by
  simp [marshalJobLines, eraseRefs, metaPreLines, nsLine, hns]

theorem ownerRefsBody_noNl (refs : List OwnerReference)
    (h : ∀ r ∈ refs, ∀ l ∈ ownerRefEntryLines r, '\n' ∉ l) :
    ∀ l ∈ ownerRefsBody refs, '\n' ∉ l := by
  induction refs with
  | nil => intro l hl; simp [ownerRefsBody] at hl
  | cons r rest ih =>
    intro l hl
    simp only [ownerRefsBody, List.mem_append] at hl
    rcases hl with hl | hl
    · exact h r (List.mem_cons_self r rest) l hl
    · exact ih (fun r' hr' => h r' (List.mem_cons_of_mem r hr')) l hl

theorem ownerRefLines_noNl (refs : List OwnerReference)
    (h : ∀ r ∈ refs, ∀ l ∈ ownerRefEntryLines r, '\n' ∉ l) :
    ∀ l ∈ ownerRefLines refs, '\n' ∉ l := by
  cases refs with
  | nil =>
    intro l hl
    simp only [ownerRefLines, List.mem_singleton] at hl
    subst hl
    decide
  | cons r rest =>
    intro l hl
    simp only [ownerRefLines, List.mem_cons] at hl
    rcases hl with hl | hl
    · subst hl; decide
    · exact ownerRefsBody_noNl (r :: rest) h l hl

/-- The anatomy of the bytes `jobToYaml` emits for a clean job: the
metadata lines, the namespace line, the commented owner-reference block
(each of its lines prefixed with `"  # "`), then the spec lines. -/
theorem jobToYaml_bytes_structure (j : Job) (h : cleanJobB j = true) :
    (jobToYaml j).2 = some (unlines (metaPreLines j ++ [nsLine j] ++
      ((ownerRefLines j.metadata.ownerReferences).map fun l => commentPre ++ l) ++
      j.specLines)) := by
  have h' := h
  simp only [cleanJobB, Bool.and_eq_true] at h'
  obtain ⟨⟨⟨⟨⟨h1, h2⟩, h3⟩, h4⟩, h5⟩, h6⟩ := h'
  have hns : j.metadata.ns ≠ "" := by simpa using h1
  have hpre : ∀ l ∈ metaPreLines j, '\n' ∉ l ∧ findSub l needleNs = none := by
    intro l hl
    have hx := List.all_eq_true.mp h2 l hl
    simp only [Bool.and_eq_true] at hx
    exact ⟨noNl_of_noNlB l hx.1.1,
      findSub_none_of_hasSubB_false l needleNs (by simpa using hx.1.2)⟩
  have hnsnl : '\n' ∉ nsLine j := noNl_of_noNlB _ h3
  have hspecnl : ∀ l ∈ j.specLines, '\n' ∉ l := by
    intro l hl
    have hx := List.all_eq_true.mp h5 l hl
    simp only [Bool.and_eq_true] at hx
    exact noNl_of_noNlB l hx.1.1
  have hrefsnl : ∀ l ∈ ownerRefLines j.metadata.ownerReferences, '\n' ∉ l := by
    apply ownerRefLines_noNl
    intro r hr l hl
    exact noNl_of_noNlB l (List.all_eq_true.mp (List.all_eq_true.mp h6 r hr) l hl)
  have hcomm : commentedOwnerRefs (unlines (ownerRefLines j.metadata.ownerReferences)) =
      unlines ((ownerRefLines j.metadata.ownerReferences).map fun l => commentPre ++ l) :=
    commented_unlines _ hrefsnl
  have hdata : unlines (marshalJobLines (eraseRefs j)) =
      unlines (metaPreLines j) ++ (nsLine j ++ '\n' :: unlines j.specLines) := by
    rw [marshal_erased j hns, List.append_assoc, unlines_append]
    simp [unlines]
  have hself : findSub (nsLine j ++ '\n' :: unlines j.specLines) needleNs = some 2 := by
    rw [findSub_line_append needleNs (nsLine j) (unlines j.specLines) (by decide) (by decide)]
    rw [show (nsLine j : Bytes) = "  namespace: ".toList ++ j.metadata.ns.toList from rfl,
      findSub_nsline]
  have hfind1 : findSub (unlines (marshalJobLines (eraseRefs j))) needleNs =
      some ((unlines (metaPreLines j)).length + 2) := by
    rw [hdata, findSub_unlines_skip (metaPreLines j) _ needleNs (by decide) (by decide) hpre,
      hself]
    simp [Nat.add_comm]
  have hdrop2 : (nsLine j ++ '\n' :: unlines j.specLines).drop 2 =
      (nsLine j).drop 2 ++ '\n' :: unlines j.specLines := rfl
  have hdropnl : '\n' ∉ (nsLine j).drop 2 :=
    fun hm => hnsnl (List.mem_of_mem_drop hm)
  have hfind2 : findSub ((unlines (marshalJobLines (eraseRefs j))).drop
      ((unlines (metaPreLines j)).length + 2)) ['\n'] = some ((nsLine j).drop 2).length := by
    rw [hdata, drop_len_add (unlines (metaPreLines j)) _ 2, hdrop2]
    exact findSub_first_nl _ _ hdropnl
  have hsplice := (spliceCommented_in_range
    (unlines (marshalJobLines (eraseRefs j)))
    (commentedOwnerRefs (unlines (ownerRefLines j.metadata.ownerReferences)))
    ((unlines (metaPreLines j)).length + 2) ((nsLine j).drop 2).length hfind1 hfind2).2
  have hlen13 : 13 ≤ (nsLine j).length := by simp [nsLine]
  have hN : (unlines (metaPreLines j)).length + 2 + ((nsLine j).drop 2).length + 1 =
      (unlines (metaPreLines j ++ [nsLine j])).length := by
    rw [unlines_append]
    simp [unlines]
    omega
  have hdata2 : unlines (marshalJobLines (eraseRefs j)) =
      unlines (metaPreLines j ++ [nsLine j]) ++ unlines j.specLines := by
    rw [hdata, unlines_append]
    simp [unlines]
  show spliceCommented (unlines (marshalJobLines (eraseRefs j)))
      (commentedOwnerRefs (unlines (ownerRefLines j.metadata.ownerReferences))) = _
  rw [hsplice, hN, hdata2, insertAtB_left, hcomm]
  rw [unlines_append, unlines_append, unlines_append,
    unlines_append (metaPreLines j) [nsLine j]]

/-- C7: for every clean job (non-empty namespace) with a non-empty
owner-reference list, the emitted byte stream is exactly the metadata
lines, the line containing `"namespace: "`, then the owner references
only as a comment block inserted directly after that line — every
comment line prefixed `"  # "`, the first being
`"  # ownerReferences:"` — and no uncommented body line contains
`"ownerReferences"`. -/
theorem jobToYaml_comments_ownerRefs_after_namespace (j : Job)
    (h : cleanJobB j = true) (hrefs : j.metadata.ownerReferences ≠ []) :
    (jobToYaml j).2 = some (unlines (metaPreLines j ++ [nsLine j] ++
      ((ownerRefLines j.metadata.ownerReferences).map fun l => commentPre ++ l) ++
      j.specLines)) ∧
    ((ownerRefLines j.metadata.ownerReferences).map fun l => commentPre ++ l).head? =
      some (commentPre ++ "ownerReferences:".toList) ∧
    (((ownerRefLines j.metadata.ownerReferences).map fun l => commentPre ++ l).all
      fun l => startsB commentPre l) = true ∧
    ((metaPreLines j ++ [nsLine j] ++ j.specLines).all
      fun l => !(hasSubB l needleOR)) = true := by
  have h' := h
  simp only [cleanJobB, Bool.and_eq_true] at h'
  obtain ⟨⟨⟨⟨⟨h1, h2⟩, h3⟩, h4⟩, h5⟩, h6⟩ := h'
  refine ⟨jobToYaml_bytes_structure j h, ?_, ?_, ?_⟩
  · cases hr : j.metadata.ownerReferences with
    | nil => exact absurd hr hrefs
    | cons r rest => simp [ownerRefLines]
  · rw [List.all_eq_true]
    intro l hl
    simp only [List.mem_map] at hl
    obtain ⟨l', _, rfl⟩ := hl
    simp [startsB_self_append]
  · rw [List.all_eq_true]
    intro l hl
    simp only [List.append_assoc, List.mem_append, List.mem_singleton] at hl
    rcases hl with hl | hl | hl
    · have hx := List.all_eq_true.mp h2 l hl
      simp only [Bool.and_eq_true] at hx
      simpa using hx.2
    · subst hl
      simpa using h4
    · have hx := List.all_eq_true.mp h5 l hl
      simp only [Bool.and_eq_true] at hx
      simpa using hx.2

/-! ### Round-trip decoding -/

theorem string_mk_toList (s : String) : String.mk s.toList = s := rfl

theorem startsB_mono (p q l : Bytes) (h : startsB (p ++ q) l = true) :
    startsB p l = true := by
  induction p generalizing l with
  | nil => simp [startsB]
  | cons c ct ih =>
    cases l with
    | nil => simp [startsB] at h
    | cons d dt =>
      show startsB (c :: ct) (d :: dt) = true
      simp only [List.cons_append, startsB] at h ⊢
      by_cases hc : c = d
      · rw [if_pos hc] at h ⊢
        exact ih dt h
      · rw [if_neg hc] at h
        exact absurd h (by simp)

theorem startsB_append_of_le (needle pfx t : Bytes) (h : needle.length ≤ pfx.length) :
    startsB needle (pfx ++ t) = startsB needle pfx := by
  induction needle generalizing pfx with
  | nil => simp [startsB]
  | cons n nt ih =>
    cases pfx with
    | nil => simp at h
    | cons c ct =>
      show startsB (n :: nt) (c :: (ct ++ t)) = startsB (n :: nt) (c :: ct)
      simp only [startsB]
      by_cases hc : n = c
      · rw [if_pos hc, if_pos hc]
        exact ih ct (by simpa using h)
      · rw [if_neg hc, if_neg hc]

theorem takeOpt_hit (pre v : Bytes) (rest : List Bytes) :
    takeOpt pre ((pre ++ v) :: rest) = (String.mk v, rest) := by
  simp [takeOpt, stripB_pre_app]

theorem takeOpt_miss (pre l : Bytes) (rest : List Bytes)
    (h : startsB pre l = false) :
    takeOpt pre (l :: rest) = ("", l :: rest) := by
  simp [takeOpt, stripB, h]

theorem decodeLines_shape_noname (av kd nsv : Bytes) (spec : List Bytes)
    (hOR : ∀ l ∈ spec, ¬(l = ("  ownerReferences:".toList : Bytes))) :
    decodeLines (("apiVersion: ".toList ++ av) :: ("kind: ".toList ++ kd) ::
      "metadata:".toList :: "  creationTimestamp: null".toList ::
      ("  namespace: ".toList ++ nsv) :: spec) =
      some ⟨String.mk av, String.mk kd, ⟨"", String.mk nsv, []⟩, spec⟩ := by
  have hmiss : takeOpt "  name: ".toList (("  namespace: ".toList ++ nsv) :: spec) =
      ("", ("  namespace: ".toList ++ nsv) :: spec) :=
    takeOpt_miss _ _ _ (by rw [startsB_append_of_le _ _ _ (by decide)]; decide)
  have hhit : takeOpt "  namespace: ".toList (("  namespace: ".toList ++ nsv) :: spec) =
      (String.mk nsv, spec) := takeOpt_hit _ _ _
  cases spec with
  | nil =>
    simp only [decodeLines, stripB_pre_app, hmiss, hhit]
    simp
  | cons s0 srest =>
    have h0 := hOR s0 (List.mem_cons_self _ _)
    simp only [decodeLines, stripB_pre_app, hmiss, hhit]
    simp
    intro hEq
    exact absurd (hEq.trans (by decide)) h0

theorem decodeLines_shape_name (av kd nm nsv : Bytes) (spec : List Bytes)
    (hOR : ∀ l ∈ spec, ¬(l = ("  ownerReferences:".toList : Bytes))) :
    decodeLines (("apiVersion: ".toList ++ av) :: ("kind: ".toList ++ kd) ::
      "metadata:".toList :: "  creationTimestamp: null".toList ::
      ("  name: ".toList ++ nm) ::
      ("  namespace: ".toList ++ nsv) :: spec) =
      some ⟨String.mk av, String.mk kd, ⟨String.mk nm, String.mk nsv, []⟩, spec⟩ := by
  have hname : takeOpt "  name: ".toList (("  name: ".toList ++ nm) ::
      ("  namespace: ".toList ++ nsv) :: spec) =
      (String.mk nm, ("  namespace: ".toList ++ nsv) :: spec) := takeOpt_hit _ _ _
  have hhit : takeOpt "  namespace: ".toList (("  namespace: ".toList ++ nsv) :: spec) =
      (String.mk nsv, spec) := takeOpt_hit _ _ _
  cases spec with
  | nil =>
    simp only [decodeLines, stripB_pre_app, hname, hhit]
    simp
  | cons s0 srest =>
    have h0 := hOR s0 (List.mem_cons_self _ _)
    simp only [decodeLines, stripB_pre_app, hname, hhit]
    simp
    intro hEq
    exact absurd (hEq.trans (by decide)) h0

theorem decodeLines_marshal (j : Job) (hns : j.metadata.ns ≠ "")
    (hspec : ∀ l ∈ j.specLines, startsB "  ".toList l = false) :
    decodeLines (metaPreLines j ++ [nsLine j] ++ j.specLines) = some (eraseRefs j) := by
  have hOR : ∀ l ∈ j.specLines, ¬(l = ("  ownerReferences:".toList : Bytes)) := by
    intro l hl heq
    have hx := hspec l hl
    rw [heq] at hx
    have hy : startsB "  ".toList ("  ownerReferences:".toList : Bytes) = true := by decide
    rw [hy] at hx
    cases hx
  by_cases hnm : j.metadata.name = ""
  · have hlist : metaPreLines j ++ [nsLine j] ++ j.specLines =
        ("apiVersion: ".toList ++ j.apiVersion.toList) ::
        ("kind: ".toList ++ j.kind.toList) ::
        "metadata:".toList :: "  creationTimestamp: null".toList ::
        ("  namespace: ".toList ++ j.metadata.ns.toList) :: j.specLines := by
      simp only [metaPreLines, nsLine, hnm, if_pos, List.append_nil, List.cons_append,
        List.nil_append, List.append_assoc, List.singleton_append]
    rw [hlist, decodeLines_shape_noname _ _ _ _ hOR]
    simp only [string_mk_toList, eraseRefs]
    simp [Job.mk.injEq, ObjectMeta.mk.injEq, hnm]
  · have hlist : metaPreLines j ++ [nsLine j] ++ j.specLines =
        ("apiVersion: ".toList ++ j.apiVersion.toList) ::
        ("kind: ".toList ++ j.kind.toList) ::
        "metadata:".toList :: "  creationTimestamp: null".toList ::
        ("  name: ".toList ++ j.metadata.name.toList) ::
        ("  namespace: ".toList ++ j.metadata.ns.toList) :: j.specLines := by
      simp only [metaPreLines, nsLine, hnm, if_neg, if_false, List.append_nil,
        List.cons_append, List.nil_append, List.append_assoc, List.singleton_append]
    rw [hlist, decodeLines_shape_name _ _ _ _ _ hOR]
    simp only [string_mk_toList, eraseRefs]

theorem startsB_commentPre_false_of_not_indent (l : Bytes)
    (h : startsB "  ".toList l = false) : startsB commentPre l = false := by
  by_cases hc : startsB commentPre l = true
  · have hmono := startsB_mono "  ".toList "# ".toList l (by
      rw [show ("  ".toList ++ "# ".toList : Bytes) = commentPre from by decide]
      exact hc)
    rw [hmono] at h
    cases h
  · simpa using hc

theorem metaPreLines_cases (j : Job) (l : Bytes) (hl : l ∈ metaPreLines j) :
    l = "apiVersion: ".toList ++ j.apiVersion.toList ∨
    l = "kind: ".toList ++ j.kind.toList ∨
    l = "metadata:".toList ∨
    l = "  creationTimestamp: null".toList ∨
    l = "  name: ".toList ++ j.metadata.name.toList := by
  by_cases hnm : j.metadata.name = "" <;>
    simp [metaPreLines, hnm] at hl ⊢ <;> tauto

/-- C6 core lemma: on a clean job the splice succeeds and decoding the
emitted bytes, ignoring the comment block, recovers the job with its
owner references removed. -/
theorem decodeBytes_jobToYaml (j : Job) (h : cleanJobB j = true) :
    (jobToYaml j).2 ≠ none ∧
    decodeBytes (((jobToYaml j).2).getD []) = some (eraseRefs j) := by
  have h' := h
  simp only [cleanJobB, Bool.and_eq_true] at h'
  obtain ⟨⟨⟨⟨⟨h1, h2⟩, h3⟩, h4⟩, h5⟩, h6⟩ := h'
  have hns : j.metadata.ns ≠ "" := by simpa using h1
  have hstruct := jobToYaml_bytes_structure j h
  refine ⟨by rw [hstruct]; simp, ?_⟩
  rw [hstruct]
  simp only [Option.getD_some]
  have hallNl : ∀ l ∈ metaPreLines j ++ [nsLine j] ++
      ((ownerRefLines j.metadata.ownerReferences).map fun l => commentPre ++ l) ++
      j.specLines, '\n' ∉ l := by
    intro l hl
    simp only [List.append_assoc, List.mem_append, List.mem_singleton,
      List.mem_map] at hl
    rcases hl with hl | hl | ⟨⟨l', hl', rfl⟩ | hl⟩
    · have hx := List.all_eq_true.mp h2 l hl
      simp only [Bool.and_eq_true] at hx
      exact noNl_of_noNlB l hx.1.1
    · subst hl; exact noNl_of_noNlB _ h3
    · intro hm
      rcases List.mem_append.mp hm with hm | hm
      · exact absurd hm (by decide)
      · refine ownerRefLines_noNl _ ?_ l' hl' hm
        intro r hr l'' hl''
        exact noNl_of_noNlB l'' (List.all_eq_true.mp (List.all_eq_true.mp h6 r hr) l'' hl'')
    · have hx := List.all_eq_true.mp h5 l hl
      simp only [Bool.and_eq_true] at hx
      exact noNl_of_noNlB l hx.1.1
  rw [decodeBytes, stripComments, splitNl_unlines _ hallNl]
  have e1 : (metaPreLines j).filter (fun l => !(startsB commentPre l)) =
      metaPreLines j := by
    rw [List.filter_eq_self]
    intro l hl
    have hfalse : startsB commentPre l = false := by
      rcases metaPreLines_cases j l hl with rfl | rfl | rfl | rfl | rfl
      · rw [startsB_append_of_le _ _ _ (by decide)]; decide
      · rw [startsB_append_of_le _ _ _ (by decide)]; decide
      · decide
      · decide
      · rw [startsB_append_of_le _ _ _ (by decide)]; decide
    simp [hfalse]
  have e2 : ([nsLine j] : List Bytes).filter (fun l => !(startsB commentPre l)) =
      [nsLine j] := by
    rw [List.filter_eq_self]
    intro l hl
    simp only [List.mem_singleton] at hl
    subst hl
    have hfalse : startsB commentPre (nsLine j) = false := by
      rw [show (nsLine j : Bytes) = "  namespace: ".toList ++ j.metadata.ns.toList from rfl,
        startsB_append_of_le _ _ _ (by decide)]
      decide
    simp [hfalse]
  have e3 : ((ownerRefLines j.metadata.ownerReferences).map
      fun l => commentPre ++ l).filter (fun l => !(startsB commentPre l)) = [] := by
    rw [List.filter_eq_nil_iff]
    intro l hl
    simp only [List.mem_map] at hl
    obtain ⟨l', _, rfl⟩ := hl
    simp [startsB_self_append]
  have e4 : (j.specLines).filter (fun l => !(startsB commentPre l)) = j.specLines := by
    rw [List.filter_eq_self]
    intro l hl
    have hx := List.all_eq_true.mp h5 l hl
    simp only [Bool.and_eq_true] at hx
    have hind : startsB "  ".toList l = false := by simpa using hx.1.2
    simp [startsB_commentPre_false_of_not_indent l hind]
  rw [List.filter_append, List.filter_append, List.filter_append, e1, e2, e3, e4,
    List.append_nil]
  refine decodeLines_marshal j hns ?_
  intro l hl
  have hx := List.all_eq_true.mp h5 l hl
  simp only [Bool.and_eq_true] at hx
  simpa using hx.1.2

/-- A concrete clean job with one owner reference, mirroring the
repository's test fixtures. -/
def jobW : Job :=
  ⟨"batch/v1", "Job",
    ⟨"test", "default", [⟨"batch/v1", "CronJob", "test", "", true⟩]⟩,
    ["spec:".toList, "status: null".toList]⟩

set_option maxRecDepth 8192 in
/-- C6 (counterexample): for the concrete job with one owner reference,
encoding with `jobToYaml` succeeds, but decoding the bytes back
(ignoring the injected comment block) does not yield a structurally
equal workload — it yields the workload with its owner references
removed, because `jobToYaml` strips them from the uncommented body. -/
theorem jobToYaml_roundtrip_cex :
    (jobToYaml jobW).2 ≠ none ∧
    decodeBytes (((jobToYaml jobW).2).getD []) ≠ some jobW ∧
    decodeBytes (((jobToYaml jobW).2).getD []) = some (eraseRefs jobW) := by
  refine ⟨by decide, by decide, by decide⟩

/-- C6 (amended): for every clean job — zero or more owner references,
non-empty namespace — encoding with `jobToYaml` succeeds, and decoding
the emitted bytes back while ignoring the injected comment block yields
the workload with its owner-reference list removed; structural equality
with the original therefore holds exactly for workloads with no owner
references. -/
theorem jobToYaml_roundtrip_erases_ownerRefs (j : Job) (h : cleanJobB j = true) :
    (jobToYaml j).2 ≠ none ∧
    decodeBytes (((jobToYaml j).2).getD []) = some (eraseRefs j) :=
  decodeBytes_jobToYaml j h

theorem jobToYaml_roundtrip_erases_ownerRefs_witness :
    (jobToYaml jobW).2 ≠ none ∧
    decodeBytes (((jobToYaml jobW).2).getD []) = some (eraseRefs jobW) :=
  jobToYaml_roundtrip_erases_ownerRefs jobW (by decide)

theorem jobToYaml_comments_ownerRefs_after_namespace_witness :
    (jobToYaml jobW).2 = some (unlines (metaPreLines jobW ++ [nsLine jobW] ++
      ((ownerRefLines jobW.metadata.ownerReferences).map fun l => commentPre ++ l) ++
      jobW.specLines)) :=
  (jobToYaml_comments_ownerRefs_after_namespace jobW (by decide) (by decide)).1
